import Mathlib

/-!
Verification of the Holoborodko smooth noise-robust differentiator
(`holoborodko_diff.py`): the coefficient generator `coeffs` and the
derivative estimator `holo_diff`.

The Python source operates on numpy float arrays; we embed it over `ℚ`
(exact field arithmetic), with lists standing for arrays.  Python slicing
(negative indices, `None` upper bounds, clamping) is modelled explicitly by
`pySlice` / `setSlice` / `pyGet` / `setAt`, so that the index arithmetic of
the source — in particular the `(-M + k) or None` upper bound — is embedded
literally.  Division by zero is `0` in `ℚ` where numpy would produce
inf/nan; no claim below depends on coincident abscissae.
-/

/-- Normalise a Python index: negative indices count from the end. -/
def pyIndex (n : ℕ) (i : ℤ) : ℤ :=
  if i < 0 then i + n else i

/-- Clamp a normalised index into `[0, n]`, as Python slicing does. -/
def clampIdx (n : ℕ) (i : ℤ) : ℕ :=
  min n i.toNat

/-- Python slice `a[l:u]`; `u = none` is Python's `a[l:]`. -/
def pySlice (a : List ℚ) (l : ℤ) (u : Option ℤ) : List ℚ :=
  let n := a.length
  let lo := clampIdx n (pyIndex n l)
  let hi := match u with
    | none => n
    | some v => clampIdx n (pyIndex n v)
  (a.drop lo).take (hi - lo)

/-- Python element read `a[i]` (in-range in all uses; default `0` otherwise). -/
def pyGet (a : List ℚ) (i : ℤ) : ℚ :=
  a.getD (pyIndex a.length i).toNat 0

/-- Python element write `a[i] = q` (in-range in all uses). -/
def setAt (a : List ℚ) (i : ℤ) (q : ℚ) : List ℚ :=
  a.set (pyIndex a.length i).toNat q

/-- Replace the region `[lo, hi)` of `a` by `v` (every use has
`v.length = hi - lo`, as numpy requires for a slice assignment). -/
def setSliceN (a : List ℚ) (lo hi : ℕ) (v : List ℚ) : List ℚ :=
  a.take lo ++ v.take (hi - lo) ++ a.drop hi

/-- Python slice assignment `a[l:u] = v`. -/
def setSlice (a : List ℚ) (l : ℤ) (u : Option ℤ) (v : List ℚ) : List ℚ :=
  let n := a.length
  let lo := clampIdx n (pyIndex n l)
  let hi := match u with
    | none => n
    | some w => clampIdx n (pyIndex n w)
  setSliceN a lo (max lo hi) v

/-- `scipy.special.comb` on the integer-valued arguments the source feeds it:
the binomial coefficient extended by `0` outside `0 ≤ r ≤ n`. -/
def combZ (n r : ℤ) : ℕ :=
  if 0 ≤ n ∧ 0 ≤ r ∧ r ≤ n then n.toNat.choose r.toNat else 0

/-- The entry of `coeffs(M)` at 0-based position `i`: with `m = (2*M - 2)/2`
and `k = i + 1`, `c_k = 1/2^(2m+1) * (comb(2m, m-k+1) - comb(2m, m-k-1))`. -/
def cFormula (M i : ℕ) : ℚ :=
  let m : ℤ := (2 * (M : ℤ) - 2) / 2
  let k : ℤ := (i : ℤ) + 1
  1 / (2 : ℚ) ^ (2 * m + 1) *
    ((combZ (2 * m) (m - k + 1) : ℚ) - (combZ (2 * m) (m - k - 1) : ℚ))

/-- `coeffs(M)` from the source (`np.arange(1, M+1)` becomes `List.range M`
with `k = i + 1`). -/
def coeffs (M : ℕ) : List ℚ :=
  (List.range M).map (cFormula M)

/-- One row of the `fk` array in `holo_diff`: for the loop iteration with
index `i` (so `k = i + 1`) and coefficient `cc = c[i]`,
`fk[i,:] = 2*k*cc*(y[ilr:iur] - y[ill:iul])/(x[ilr:iur] - x[ill:iul])`,
with `ill = M-k`, `ilr = M+k`, `iul = -M-k`, `iur = (-M + k) or None`
(Python's `or` turns the falsy value `0`, reached exactly at `k = M`,
into `None`, i.e. take-to-end). -/
def fkRow (x y : List ℚ) (M k : ℕ) (cc : ℚ) : List ℚ :=
  let ill : ℤ := (M : ℤ) - (k : ℤ)
  let ilr : ℤ := (M : ℤ) + (k : ℤ)
  let iul : ℤ := -(M : ℤ) - (k : ℤ)
  let iur : Option ℤ := if -(M : ℤ) + (k : ℤ) = 0 then none else some (-(M : ℤ) + (k : ℤ))
  (List.zipWith (· / ·)
      (List.zipWith (· - ·) (pySlice y ilr iur) (pySlice y ill (some iul)))
      (List.zipWith (· - ·) (pySlice x ilr iur) (pySlice x ill (some iul)))).map
    (fun q => 2 * (k : ℚ) * cc * q)

/-- The rows of `fk`, one per `(i, cc)` of `enumerate(coeffs(M))`. -/
def fkRows (x y : List ℚ) (M : ℕ) : List (List ℚ) :=
  let c := coeffs M
  (List.range c.length).map (fun i => fkRow x y M (i + 1) (c.getD i 0))

/-- `fk.sum(axis=0)`: elementwise sum of the rows over a zero base row. -/
def fkSum (x y : List ℚ) (M : ℕ) : List ℚ :=
  (fkRows x y M).foldl (fun acc r => List.zipWith (· + ·) acc r)
    (List.replicate (y.length - 2 * M) 0)

/-- `df` after `df = np.zeros_like(y)` and `df[M:-M] = fk.sum(axis=0)`. -/
def dfInterior (x y : List ℚ) (M : ℕ) : List ℚ :=
  setSlice (List.replicate y.length 0) (M : ℤ) (some (-(M : ℤ))) (fkSum x y M)

/-- The `else` branch of `holo_diff` (reached for `M ≤ 1`):
`df[0] = (y[1]-y[0])/(x[1]-x[0])`, `df[-1] = (y[-1]-y[-2])/(x[-1]-x[-2])`. -/
def holoBase (x y : List ℚ) (M : ℕ) : List ℚ :=
  let df1 := dfInterior x y M
  let df2 := setAt df1 0 ((pyGet y 1 - pyGet y 0) / (pyGet x 1 - pyGet x 0))
  setAt df2 (-1) ((pyGet y (-1) - pyGet y (-2)) / (pyGet x (-1) - pyGet x (-2)))

/-- The body of `holo_diff` after the scalar expansion and length assert.
Recursive calls are made with `x`, `y` arrays of equal length, so their
scalar test and assert are no-ops and the recursion goes straight to this
body.  `df[:M] = dflo[:M]` and `df[-M:] = dfhi[-M:]` with
`dflo = holo_diff(x[:2M], y[:2M], M-1)`, `dfhi = holo_diff(x[-2M:], y[-2M:], M-1)`. -/
def holoCore : ℕ → List ℚ → List ℚ → List ℚ
  | 0, x, y => holoBase x y 0
  | 1, x, y => holoBase x y 1
  | m + 2, x, y =>
    let M := m + 2
    let df1 := dfInterior x y M
    let dflo := holoCore (m + 1) (pySlice x 0 (some ((2 * M : ℕ) : ℤ)))
      (pySlice y 0 (some ((2 * M : ℕ) : ℤ)))
    let dfhi := holoCore (m + 1) (pySlice x (-((2 * M : ℕ) : ℤ)) none)
      (pySlice y (-((2 * M : ℕ) : ℤ)) none)
    let df2 := setSlice df1 0 (some (M : ℤ)) (pySlice dflo 0 (some (M : ℤ)))
    setSlice df2 (-(M : ℤ)) none (pySlice dfhi (-(M : ℤ)) none)

/-- The assertion message of `holo_diff`, carrying both lengths. -/
def lenMsg (nx ny : ℕ) : String :=
  "x and y must have the same length if x is an array, len(x) = "
    ++ toString nx ++ ", len(y) = " ++ toString ny

/-- `holo_diff(x, y, M)`: `x` is either a scalar step (`Sum.inl`), expanded
to `x*np.arange(len(y))`, or an array (`Sum.inr`); the assert raises
(`Except.error`) when the lengths differ. -/
def holo_diff (x : ℚ ⊕ List ℚ) (y : List ℚ) (M : ℕ) : Except String (List ℚ) :=
  let xs := match x with
    | Sum.inl step => (List.range y.length).map (fun (i : ℕ) => step * (i : ℚ))
    | Sum.inr xs => xs
  if xs.length = y.length then
    Except.ok (holoCore M xs y)
  else
    Except.error (lenMsg xs.length y.length)

/-- The closed form of the claimed coefficient formula, written from the
spec: `m = M - 1`, `c_k = (1/2^(2m+1)) * (C(2m, m-k+1) - C(2m, m-k-1))`
with `C(n, r) = 0` for `r < 0` or `r > n`. -/
def chooseSpec (n : ℕ) (r : ℤ) : ℕ :=
  if r < 0 ∨ (n : ℤ) < r then 0 else n.choose r.toNat

/-- Spec-side closed form for the `k`-th coefficient (`k = 1..M`). -/
def cSpec (M k : ℕ) : ℚ :=
  let m := M - 1
  1 / (2 : ℚ) ^ (2 * m + 1) *
    ((chooseSpec (2 * m) ((m : ℤ) - (k : ℤ) + 1) : ℚ)
      - (chooseSpec (2 * m) ((m : ℤ) - (k : ℤ) - 1) : ℚ))

/-- Strictly increasing abscissae (adjacent form, which is equivalent). -/
def StrictIncr (x : List ℚ) : Prop :=
  ∀ i, i < x.length - 1 → x.getD i 0 < x.getD (i + 1) 0

/-- Depth of the recursion of `holoCore`: one level per branch taken with
`M > 1`, mirroring the recursion pattern of the source. -/
def holoDepth : ℕ → ℕ
  | 0 => 0
  | 1 => 0
  | m + 2 => holoDepth (m + 1) + 1

/-- The binomial sequence `b_k = C(2m, m-k+1)` (0-extended), as a rational. -/
def bCh (m k : ℕ) : ℚ :=
  (combZ ((2 * m : ℕ) : ℤ) ((m : ℤ) - (k : ℤ) + 1) : ℚ)

/-! ### Basic indexing lemmas -/

theorem getD_drop (a : List ℚ) (d j : ℕ) : (a.drop d).getD j 0 = a.getD (d + j) 0 := by
  simp [List.getD_eq_getElem?_getD, List.getElem?_drop]

theorem getD_take (a : List ℚ) (t j : ℕ) (h : j < t) :
    (a.take t).getD j 0 = a.getD j 0 := by
  simp [List.getD_eq_getElem?_getD, List.getElem?_take, h]

theorem getD_zipWith (f : ℚ → ℚ → ℚ) (as bs : List ℚ) (j : ℕ)
    (h1 : j < as.length) (h2 : j < bs.length) :
    (List.zipWith f as bs).getD j 0 = f (as.getD j 0) (bs.getD j 0) := by
  rw [List.getD_eq_getElem?_getD, List.getElem?_zipWith,
    List.getElem?_eq_getElem h1, List.getElem?_eq_getElem h2,
    List.getD_eq_getElem?_getD, List.getD_eq_getElem?_getD,
    List.getElem?_eq_getElem h1, List.getElem?_eq_getElem h2]
  rfl

theorem getD_map (g : ℚ → ℚ) (l : List ℚ) (j : ℕ) (h : j < l.length) :
    (l.map g).getD j 0 = g (l.getD j 0) := by
  rw [List.getD_eq_getElem?_getD, List.getElem?_map, List.getElem?_eq_getElem h,
    List.getD_eq_getElem?_getD, List.getElem?_eq_getElem h]
  rfl

theorem getD_replicate (w j : ℕ) : (List.replicate w (0 : ℚ)).getD j 0 = 0 := by
  rw [List.getD_eq_getElem?_getD, List.getElem?_replicate]
  by_cases h : j < w <;> simp [h]

theorem getD_set (a : List ℚ) (p j : ℕ) (q : ℚ) :
    (a.set p q).getD j 0 = if p = j ∧ p < a.length then q else a.getD j 0 := by
  rw [List.getD_eq_getElem?_getD, List.getElem?_set, List.getD_eq_getElem?_getD]
  by_cases h1 : p = j
  · subst h1
    by_cases h2 : p < a.length
    · simp [h2]
    · rw [if_pos rfl, if_neg h2, if_neg (by tauto),
        List.getElem?_eq_none (by omega)]
  · simp [h1]

/-! ### Slice normalisation lemmas -/

theorem pySlice_nat_none (a : List ℚ) (l : ℕ) : pySlice a (l : ℤ) none = a.drop l := by
  simp only [pySlice, clampIdx, pyIndex]
  rw [if_neg (by omega)]
  simp only [Int.toNat_natCast]
  rcases le_or_lt l a.length with h | h
  · rw [min_eq_right h]
    exact List.take_of_length_le (by simp)
  · rw [min_eq_left h.le, List.drop_length, List.drop_of_length_le h.le]
    simp

theorem pySlice_neg_none (a : List ℚ) (d : ℕ) (h1 : 1 ≤ d) (h2 : d ≤ a.length) :
    pySlice a (-(d : ℤ)) none = a.drop (a.length - d) := by
  simp only [pySlice, clampIdx, pyIndex]
  rw [if_pos (by omega : -(d : ℤ) < 0)]
  rw [(by omega : (-(d : ℤ) + a.length).toNat = a.length - d), min_eq_right (by omega)]
  exact List.take_of_length_le (by simp)

theorem pySlice_zero_nat (a : List ℚ) (u : ℕ) :
    pySlice a 0 (some (u : ℤ)) = a.take u := by
  simp only [pySlice, clampIdx, pyIndex]
  rw [if_neg (show ¬((0 : ℤ) < 0) by omega), if_neg (show ¬((u : ℤ) < 0) by omega)]
  simp only [Int.toNat_natCast, Int.toNat_zero]
  rw [min_eq_right (Nat.zero_le a.length), Nat.sub_zero, List.drop_zero]
  rcases le_or_lt u a.length with h | h
  · rw [min_eq_right h]
  · rw [min_eq_left h.le, List.take_length, List.take_of_length_le h.le]

theorem pySlice_nat_nat (a : List ℚ) (l u : ℕ) (hu : u ≤ a.length) :
    pySlice a (l : ℤ) (some (u : ℤ)) = (a.drop l).take (u - l) := by
  simp only [pySlice, clampIdx, pyIndex]
  rw [if_neg (by omega), if_neg (by omega)]
  simp only [Int.toNat_natCast]
  rw [min_eq_right hu]
  rcases le_or_lt l a.length with h | h
  · rw [min_eq_right h]
  · rw [min_eq_left h.le, List.drop_length, List.drop_of_length_le h.le]
    simp

theorem pySlice_nat_neg (a : List ℚ) (l d : ℕ) (h1 : 1 ≤ d) (h2 : d ≤ a.length) :
    pySlice a (l : ℤ) (some (-(d : ℤ))) = (a.drop l).take (a.length - d - l) := by
  simp only [pySlice, clampIdx, pyIndex]
  rw [if_neg (show ¬((l : ℤ) < 0) by omega), if_pos (show -(d : ℤ) < 0 by omega)]
  rw [(by omega : (-(d : ℤ) + a.length).toNat = a.length - d), Int.toNat_natCast,
    min_eq_right (show a.length - d ≤ a.length by omega)]
  rcases le_or_lt l a.length with h | h
  · rw [min_eq_right h]
  · rw [min_eq_left h.le, List.drop_length, List.drop_of_length_le h.le]
    simp

/-! ### Slice-assignment lemmas -/

theorem length_setSliceN (a v : List ℚ) (lo hi : ℕ) (h1 : lo ≤ hi)
    (h2 : hi ≤ a.length) (h3 : hi - lo ≤ v.length) :
    (setSliceN a lo hi v).length = a.length := by
  unfold setSliceN
  simp only [List.length_append, List.length_take, List.length_drop]
  omega

theorem getD_setSliceN_lo (a v : List ℚ) (lo hi i : ℕ) (hlo : lo ≤ a.length)
    (hlt : i < lo) :
    (setSliceN a lo hi v).getD i 0 = a.getD i 0 := by
  unfold setSliceN
  have hl : (a.take lo).length = lo := by simp; omega
  rw [List.getD_eq_getElem?_getD, List.append_assoc, List.getElem?_append, hl,
    if_pos hlt, ← List.getD_eq_getElem?_getD, getD_take _ _ _ hlt]

theorem getD_setSliceN_mid (a v : List ℚ) (lo hi i : ℕ) (h1 : lo ≤ i) (h2 : i < hi)
    (h3 : hi ≤ a.length) (hv : hi - lo ≤ v.length) :
    (setSliceN a lo hi v).getD i 0 = v.getD (i - lo) 0 := by
  unfold setSliceN
  have hl : (a.take lo).length = lo := by simp; omega
  have hm : (v.take (hi - lo)).length = hi - lo := by simp; omega
  rw [List.getD_eq_getElem?_getD, List.append_assoc, List.getElem?_append, hl,
    if_neg (by omega), List.getElem?_append, hm, if_pos (by omega),
    ← List.getD_eq_getElem?_getD, getD_take _ _ _ (by omega)]

theorem getD_setSliceN_hi (a v : List ℚ) (lo hi i : ℕ) (h1 : lo ≤ hi)
    (h2 : hi ≤ a.length) (h3 : hi ≤ i) (hv : hi - lo ≤ v.length) :
    (setSliceN a lo hi v).getD i 0 = a.getD i 0 := by
  unfold setSliceN
  have hl : (a.take lo).length = lo := by simp; omega
  have hm : (v.take (hi - lo)).length = hi - lo := by simp; omega
  rw [List.getD_eq_getElem?_getD, List.append_assoc, List.getElem?_append, hl,
    if_neg (by omega), List.getElem?_append, hm, if_neg (by omega),
    List.getElem?_drop, ← List.getD_eq_getElem?_getD]
  congr 1
  omega

theorem setSlice_interior (a v : List ℚ) (M : ℕ) (hM : 1 ≤ M) (hn : 2 * M ≤ a.length) :
    setSlice a (M : ℤ) (some (-(M : ℤ))) v = setSliceN a M (a.length - M) v := by
  simp only [setSlice, clampIdx, pyIndex]
  rw [if_neg (by omega), if_pos (by omega : -(M : ℤ) < 0)]
  rw [(by omega : (-(M : ℤ) + a.length).toNat = a.length - M), Int.toNat_natCast,
    min_eq_right (by omega), min_eq_right (by omega), max_eq_right (by omega)]

theorem setSlice_low (a v : List ℚ) (M : ℕ) (hn : M ≤ a.length) :
    setSlice a 0 (some (M : ℤ)) v = setSliceN a 0 M v := by
  simp only [setSlice, clampIdx, pyIndex]
  rw [if_neg (by omega), if_neg (by omega)]
  simp only [Int.toNat_natCast, Int.toNat_zero]
  rw [min_eq_right (by omega), min_eq_right (by omega), max_eq_right (by omega)]

theorem setSlice_high (a v : List ℚ) (M : ℕ) (hM : 1 ≤ M) (hn : M ≤ a.length) :
    setSlice a (-(M : ℤ)) none v = setSliceN a (a.length - M) a.length v := by
  simp only [setSlice, clampIdx, pyIndex]
  rw [if_pos (show -(M : ℤ) < 0 by omega)]
  rw [(by omega : (-(M : ℤ) + a.length).toNat = a.length - M),
    min_eq_right (show a.length - M ≤ a.length by omega),
    max_eq_right (show a.length - M ≤ a.length by omega)]

theorem setAt_zero (a : List ℚ) (q : ℚ) : setAt a 0 q = a.set 0 q := by
  simp [setAt, pyIndex]

theorem setAt_neg_one (a : List ℚ) (q : ℚ) (h : 1 ≤ a.length) :
    setAt a (-1) q = a.set (a.length - 1) q := by
  simp only [setAt, pyIndex]
  rw [if_pos (by omega)]
  congr 1
  omega

/-! ### Coefficient lemmas -/

theorem length_coeffs (M : ℕ) : (coeffs M).length = M := by
  rw [coeffs, List.length_map, List.length_range]

theorem coeffs_m_eq (M : ℕ) : (2 * (M : ℤ) - 2) / 2 = (M : ℤ) - 1 := by
  omega

theorem coeffs_getD (M i : ℕ) (hi : i < M) :
    (coeffs M).getD i 0 =
      1 / (2 : ℚ) ^ (2 * ((M : ℤ) - 1) + 1) *
        ((combZ (2 * ((M : ℤ) - 1)) ((M : ℤ) - 1 - ((i : ℤ) + 1) + 1) : ℚ)
          - (combZ (2 * ((M : ℤ) - 1)) ((M : ℤ) - 1 - ((i : ℤ) + 1) - 1) : ℚ)) := by
  rw [coeffs, List.getD_eq_getElem?_getD, List.getElem?_map, List.getElem?_range hi,
    Option.map_some', Option.getD_some]
  simp only [cFormula, coeffs_m_eq]

theorem bCh_zero_of_big (m k : ℕ) (h : m + 1 < k) : bCh m k = 0 := by
  unfold bCh combZ
  rw [if_neg (by push_cast; omega)]
  simp

theorem bCh_eq_choose (m k : ℕ) (h1 : 1 ≤ k) (h2 : k ≤ m + 1) :
    bCh m k = ((2 * m).choose (m + 1 - k) : ℚ) := by
  unfold bCh combZ
  rw [if_pos (by push_cast; omega)]
  rw [(by omega : ((2 * m : ℕ) : ℤ).toNat = 2 * m),
    (by omega : ((m : ℤ) - (k : ℤ) + 1).toNat = m + 1 - k)]

theorem coeffs_getD_bCh (m t : ℕ) (ht : t < m + 1) :
    (coeffs (m + 1)).getD t 0
      = 1 / (2 : ℚ) ^ (2 * m + 1) * (bCh m (t + 1) - bCh m (t + 3)) := by
  rw [coeffs_getD (m + 1) t ht]
  have hm : ((m + 1 : ℕ) : ℤ) - 1 = (m : ℤ) := by push_cast; ring
  rw [hm]
  have he : (2 * (m : ℤ) + 1) = ((2 * m + 1 : ℕ) : ℤ) := by push_cast; ring
  rw [he, zpow_natCast]
  unfold bCh
  have e0 : ((2 * m : ℕ) : ℤ) = 2 * (m : ℤ) := by push_cast; ring
  have e1 : (m : ℤ) - ((t + 1 : ℕ) : ℤ) + 1 = (m : ℤ) - ((t : ℤ) + 1) + 1 := by
    push_cast; ring
  have e2 : (m : ℤ) - ((t + 3 : ℕ) : ℤ) + 1 = (m : ℤ) - ((t : ℤ) + 1) - 1 := by
    push_cast; ring
  rw [e0, e1, e2]

theorem abel_weighted (g : ℕ → ℚ) (M : ℕ) :
    ∑ t in Finset.range M, ((t : ℚ) + 1) * (g (t + 1) - g (t + 2))
      = (∑ t in Finset.range M, g (t + 1)) - M * g (M + 1) := by
  induction M with
  | zero => simp
  | succ n ih =>
    rw [Finset.sum_range_succ, Finset.sum_range_succ, ih]
    push_cast
    ring

theorem abel_weighted2 (g : ℕ → ℚ) (M : ℕ) :
    ∑ t in Finset.range M, ((t : ℚ) + 1) * (g (t + 2) - g (t + 3))
      = (∑ t in Finset.range M, g (t + 2)) - M * g (M + 2) := by
  induction M with
  | zero => simp
  | succ n ih =>
    rw [Finset.sum_range_succ, Finset.sum_range_succ, ih]
    push_cast
    ring

theorem sum_shift_bCh (m N : ℕ) :
    ∑ t in Finset.range N, bCh m (t + 2)
      = ∑ t in Finset.range N, bCh m (t + 1) + bCh m (N + 1) - bCh m 1 := by
  induction N with
  | zero => simp
  | succ n ih =>
    rw [Finset.sum_range_succ, Finset.sum_range_succ, ih]
    ring

theorem two_mul_sum_choose (m : ℕ) :
    2 * ∑ j in Finset.range (m + 1), (2 * m).choose j = 4 ^ m + (2 * m).choose m := by
  have htot : ∑ j in Finset.range (2 * m + 1), (2 * m).choose j = 4 ^ m := by
    rw [Nat.sum_range_choose, pow_mul]
    norm_num
  have hsplit : ∑ j in Finset.range (m + 1), (2 * m).choose j
      + ∑ j in Finset.Ico (m + 1) (2 * m + 1), (2 * m).choose j
      = ∑ j in Finset.range (2 * m + 1), (2 * m).choose j := by
    rw [Finset.range_eq_Ico]
    exact Finset.sum_Ico_consecutive _ (by omega) (by omega)
  have hhigh : ∑ j in Finset.Ico (m + 1) (2 * m + 1), (2 * m).choose j
      = ∑ j in Finset.range m, (2 * m).choose j := by
    rw [Finset.sum_Ico_eq_sum_range]
    have hlen : 2 * m + 1 - (m + 1) = m := by omega
    rw [hlen]
    have hsym : ∀ i ∈ Finset.range m,
        (2 * m).choose (m + 1 + i) = (2 * m).choose (m - 1 - i) := by
      intro i hi
      rw [Finset.mem_range] at hi
      have h := Nat.choose_symm (show m + 1 + i ≤ 2 * m by omega)
      rw [(by omega : 2 * m - (m + 1 + i) = m - 1 - i)] at h
      exact h.symm
    rw [Finset.sum_congr rfl hsym]
    exact Finset.sum_range_reflect (fun j => (2 * m).choose j) m
  have hsucc : ∑ j in Finset.range (m + 1), (2 * m).choose j
      = ∑ j in Finset.range m, (2 * m).choose j + (2 * m).choose m :=
    Finset.sum_range_succ _ m
  omega

theorem sum_bCh_reflect (m : ℕ) :
    ∑ t in Finset.range (m + 1), bCh m (t + 1)
      = ((∑ j in Finset.range (m + 1), (2 * m).choose j : ℕ) : ℚ) := by
  have h1 : ∀ t ∈ Finset.range (m + 1),
      bCh m (t + 1) = (((2 * m).choose (m + 1 - 1 - t) : ℕ) : ℚ) := by
    intro t ht
    rw [Finset.mem_range] at ht
    rw [bCh_eq_choose m (t + 1) (by omega) (by omega)]
    congr 2
    omega
  rw [Finset.sum_congr rfl h1, ← Nat.cast_sum]
  congr 1
  exact Finset.sum_range_reflect (fun j => (2 * m).choose j) (m + 1)

/-- The consistency identity: the weighted coefficient sum is `1/2` for every
order `M ≥ 1`. -/
theorem coeffs_weight_sum (M : ℕ) (hM : 1 ≤ M) :
    ∑ t in Finset.range M, ((t : ℚ) + 1) * (coeffs M).getD t 0 = 1 / 2 := by
  obtain ⟨m, rfl⟩ : ∃ m, M = m + 1 := ⟨M - 1, by omega⟩
  have hentry : ∀ t ∈ Finset.range (m + 1),
      ((t : ℚ) + 1) * (coeffs (m + 1)).getD t 0
        = 1 / (2 : ℚ) ^ (2 * m + 1) * (((t : ℚ) + 1) * (bCh m (t + 1) - bCh m (t + 3))) := by
    intro t ht
    rw [Finset.mem_range] at ht
    rw [coeffs_getD_bCh m t ht]
    ring
  rw [Finset.sum_congr rfl hentry, ← Finset.mul_sum]
  have hsplitterm : ∀ t ∈ Finset.range (m + 1),
      ((t : ℚ) + 1) * (bCh m (t + 1) - bCh m (t + 3))
        = ((t : ℚ) + 1) * (bCh m (t + 1) - bCh m (t + 2))
          + ((t : ℚ) + 1) * (bCh m (t + 2) - bCh m (t + 3)) := by
    intro t _
    ring
  rw [Finset.sum_congr rfl hsplitterm, Finset.sum_add_distrib,
    abel_weighted (bCh m) (m + 1), abel_weighted2 (bCh m) (m + 1),
    sum_shift_bCh m (m + 1),
    bCh_zero_of_big m (m + 1 + 1) (by omega), bCh_zero_of_big m (m + 1 + 2) (by omega),
    sum_bCh_reflect m, bCh_eq_choose m 1 (by omega) (by omega),
    (by omega : m + 1 - 1 = m)]
  have hnat := two_mul_sum_choose m
  have hq : 2 * ((∑ j in Finset.range (m + 1), (2 * m).choose j : ℕ) : ℚ)
      = 4 ^ m + ((2 * m).choose m : ℚ) := by
    exact_mod_cast congrArg (fun z : ℕ => (z : ℚ)) hnat
  have h4 : (4 : ℚ) ^ m = 2 ^ (2 * m) := by
    rw [pow_mul]
    norm_num
  have hq' := hq
  push_cast at hq'
  have h2pow : (2 : ℚ) ^ (2 * m + 1) ≠ 0 := by positivity
  field_simp
  rw [pow_succ] at h2pow ⊢
  nlinarith [hq', h4]

/-! ### Pointwise reads -/

theorem pyGet_nat (a : List ℚ) (k : ℕ) : pyGet a (k : ℤ) = a.getD k 0 := by
  simp only [pyGet, pyIndex]
  rw [if_neg (by omega)]
  simp

theorem pyGet_neg (a : List ℚ) (d : ℕ) (h1 : 1 ≤ d) (h2 : d ≤ a.length) :
    pyGet a (-(d : ℤ)) = a.getD (a.length - d) 0 := by
  simp only [pyGet, pyIndex]
  rw [if_pos (by omega), (by omega : (-(d : ℤ) + a.length).toNat = a.length - d)]

/-! ### Elementwise accumulation -/

theorem foldl_zipAdd_length (rows : List (List ℚ)) (init : List ℚ) (w : ℕ)
    (hinit : init.length = w) (hr : ∀ r ∈ rows, r.length = w) :
    (rows.foldl (fun acc r => List.zipWith (· + ·) acc r) init).length = w := by
  induction rows generalizing init with
  | nil => simpa
  | cons r rs ih =>
    simp only [List.foldl_cons]
    refine ih _ ?_ (fun r' h' => hr r' (by simp [h']))
    rw [List.length_zipWith, hinit, hr r (by simp)]
    simp

theorem foldl_zipAdd_getD (rows : List (List ℚ)) (init : List ℚ) (w j : ℕ)
    (hinit : init.length = w) (hr : ∀ r ∈ rows, r.length = w) (hj : j < w) :
    (rows.foldl (fun acc r => List.zipWith (· + ·) acc r) init).getD j 0
      = init.getD j 0 + (rows.map (fun r => r.getD j 0)).sum := by
  induction rows generalizing init with
  | nil => simp
  | cons r rs ih =>
    simp only [List.foldl_cons, List.map_cons, List.sum_cons]
    rw [ih (List.zipWith (· + ·) init r)
      (by rw [List.length_zipWith, hinit, hr r (by simp)]; simp)
      (fun r' h' => hr r' (by simp [h'])),
      getD_zipWith _ _ _ _ (by omega) (by rw [hr r (by simp)]; exact hj)]
    ring

theorem sum_map_range (g : ℕ → ℚ) (n : ℕ) :
    ((List.range n).map g).sum = ∑ t in Finset.range n, g t := by
  induction n with
  | zero => simp
  | succ n ih =>
    rw [List.range_succ, List.map_append, List.sum_append, Finset.sum_range_succ, ih]
    simp

/-! ### The `fk` rows -/

theorem sliceU_eq (a : List ℚ) (M k : ℕ) (hk1 : 1 ≤ k) (hk2 : k ≤ M)
    (hn : 2 * M ≤ a.length) :
    pySlice a ((M : ℤ) + (k : ℤ))
        (if -(M : ℤ) + (k : ℤ) = 0 then none else some (-(M : ℤ) + (k : ℤ)))
      = (a.drop (M + k)).take (a.length - 2 * M) := by
  by_cases hkM : k = M
  · subst hkM
    rw [if_pos (by ring), (by omega : (k : ℤ) + (k : ℤ) = ((k + k : ℕ) : ℤ)),
      pySlice_nat_none]
    exact (List.take_of_length_le (by simp; omega)).symm
  · have hlt : k < M := lt_of_le_of_ne hk2 hkM
    rw [if_neg (by omega), (by omega : (M : ℤ) + (k : ℤ) = ((M + k : ℕ) : ℤ)),
      (by omega : -(M : ℤ) + (k : ℤ) = -((M - k : ℕ) : ℤ)),
      pySlice_nat_neg a (M + k) (M - k) (by omega) (by omega)]
    congr 1
    omega

theorem sliceL_eq (a : List ℚ) (M k : ℕ) (hk1 : 1 ≤ k) (hk2 : k ≤ M)
    (hn : 2 * M ≤ a.length) :
    pySlice a ((M : ℤ) - (k : ℤ)) (some (-(M : ℤ) - (k : ℤ)))
      = (a.drop (M - k)).take (a.length - 2 * M) := by
  rw [(by omega : (M : ℤ) - (k : ℤ) = ((M - k : ℕ) : ℤ)),
    (by omega : -(M : ℤ) - (k : ℤ) = -((M + k : ℕ) : ℤ)),
    pySlice_nat_neg a (M - k) (M + k) (by omega) (by omega)]
  congr 1
  omega

theorem fkRow_length (x y : List ℚ) (M k : ℕ) (cc : ℚ) (hk1 : 1 ≤ k) (hk2 : k ≤ M)
    (hxy : x.length = y.length) (hn : 2 * M ≤ y.length) :
    (fkRow x y M k cc).length = y.length - 2 * M := by
  simp only [fkRow]
  rw [sliceU_eq y M k hk1 hk2 hn, sliceU_eq x M k hk1 hk2 (by omega),
    sliceL_eq y M k hk1 hk2 hn, sliceL_eq x M k hk1 hk2 (by omega),
    List.length_map]
  simp only [List.length_zipWith, List.length_take, List.length_drop, hxy]
  omega

theorem fkRow_getD (x y : List ℚ) (M k : ℕ) (cc : ℚ) (hk1 : 1 ≤ k) (hk2 : k ≤ M)
    (hxy : x.length = y.length) (hn : 2 * M ≤ y.length) (j : ℕ)
    (hj : j < y.length - 2 * M) :
    (fkRow x y M k cc).getD j 0
      = 2 * (k : ℚ) * cc * ((y.getD (M + k + j) 0 - y.getD (M - k + j) 0)
          / (x.getD (M + k + j) 0 - x.getD (M - k + j) 0)) := by
  simp only [fkRow]
  rw [sliceU_eq y M k hk1 hk2 hn, sliceU_eq x M k hk1 hk2 (by omega),
    sliceL_eq y M k hk1 hk2 hn, sliceL_eq x M k hk1 hk2 (by omega)]
  have hly : ∀ d : ℕ, d ≤ 2 * M → ((y.drop (M + k)).take (y.length - 2 * M)).length
      = y.length - 2 * M := by
    intro d _
    simp only [List.length_take, List.length_drop]
    omega
  have hlen : ∀ (a : List ℚ) (s : ℕ), a.length = y.length → s ≤ 2 * M →
      ((a.drop s).take (y.length - 2 * M)).length = y.length - 2 * M := by
    intro a s ha hs
    simp only [List.length_take, List.length_drop, ha]
    omega
  rw [getD_map _ _ _ (by
      simp only [List.length_zipWith, List.length_take, List.length_drop, hxy]
      omega),
    getD_zipWith _ _ _ _ (by
      simp only [List.length_zipWith, List.length_take, List.length_drop]
      omega)
    (by
      simp only [List.length_zipWith, List.length_take, List.length_drop, hxy]
      omega),
    getD_zipWith _ _ _ _ (by simp only [List.length_take, List.length_drop]; omega)
      (by simp only [List.length_take, List.length_drop]; omega),
    getD_zipWith _ _ _ _ (by simp only [List.length_take, List.length_drop, hxy]; omega)
      (by simp only [List.length_take, List.length_drop, hxy]; omega),
    getD_take _ _ _ hj, getD_take _ _ _ hj, getD_take _ _ _ (by omega),
    getD_take _ _ _ (by omega), getD_drop, getD_drop, getD_drop, getD_drop]

/-! ### The accumulated interior -/

theorem fkRows_mem_length (x y : List ℚ) (M : ℕ) (hxy : x.length = y.length)
    (hn : 2 * M ≤ y.length) :
    ∀ r ∈ fkRows x y M, r.length = y.length - 2 * M := by
  intro r hr
  simp only [fkRows, List.mem_map, List.mem_range, length_coeffs] at hr
  obtain ⟨t, ht, rfl⟩ := hr
  exact fkRow_length x y M (t + 1) _ (by omega) (by omega) hxy hn

theorem length_fkSum (x y : List ℚ) (M : ℕ) (hxy : x.length = y.length)
    (hn : 2 * M ≤ y.length) :
    (fkSum x y M).length = y.length - 2 * M := by
  unfold fkSum
  exact foldl_zipAdd_length _ _ _ (by simp) (fkRows_mem_length x y M hxy hn)

theorem fkSum_getD (x y : List ℚ) (M j : ℕ) (hxy : x.length = y.length)
    (hn : 2 * M ≤ y.length) (hj : j < y.length - 2 * M) :
    (fkSum x y M).getD j 0
      = ∑ t in Finset.range M, 2 * ((t : ℚ) + 1) * (coeffs M).getD t 0 *
          ((y.getD (M + (t + 1) + j) 0 - y.getD (M - (t + 1) + j) 0)
            / (x.getD (M + (t + 1) + j) 0 - x.getD (M - (t + 1) + j) 0)) := by
  unfold fkSum
  rw [foldl_zipAdd_getD _ _ (y.length - 2 * M) j (by simp)
    (fkRows_mem_length x y M hxy hn) hj, getD_replicate, zero_add]
  simp only [fkRows, List.map_map, length_coeffs]
  rw [sum_map_range]
  refine Finset.sum_congr rfl ?_
  intro t ht
  rw [Finset.mem_range] at ht
  simp only [Function.comp]
  rw [fkRow_getD x y M (t + 1) _ (by omega) (by omega) hxy hn j hj]
  push_cast
  ring

theorem length_dfInterior (x y : List ℚ) (M : ℕ) (hM : 1 ≤ M)
    (hxy : x.length = y.length) (hn : 2 * M ≤ y.length) :
    (dfInterior x y M).length = y.length := by
  unfold dfInterior
  rw [setSlice_interior _ _ M hM (by simp; omega)]
  simp only [List.length_replicate]
  rw [length_setSliceN _ _ _ _ (by omega) (by simp)
    (by rw [length_fkSum x y M hxy hn]; simp; omega)]
  simp

theorem dfInterior_getD_mid (x y : List ℚ) (M i : ℕ) (hM : 1 ≤ M)
    (hxy : x.length = y.length) (hn : 2 * M ≤ y.length) (h1 : M ≤ i)
    (h2 : i < y.length - M) :
    (dfInterior x y M).getD i 0 = (fkSum x y M).getD (i - M) 0 := by
  unfold dfInterior
  rw [setSlice_interior _ _ M hM (by simp; omega)]
  simp only [List.length_replicate]
  exact getD_setSliceN_mid _ _ _ _ _ h1 h2 (by simp)
    (by rw [length_fkSum x y M hxy hn]; simp; omega)

theorem dfInterior_getD_out (x y : List ℚ) (M i : ℕ) (hM : 1 ≤ M)
    (hxy : x.length = y.length) (hn : 2 * M ≤ y.length)
    (h : i < M ∨ y.length - M ≤ i) :
    (dfInterior x y M).getD i 0 = 0 := by
  unfold dfInterior
  rw [setSlice_interior _ _ M hM (by simp; omega)]
  simp only [List.length_replicate]
  rcases h with h | h
  · rw [getD_setSliceN_lo _ _ _ _ _ (by simp; omega) h, getD_replicate]
  · rw [getD_setSliceN_hi _ _ _ _ _ (by omega) (by simp) h
      (by rw [length_fkSum x y M hxy hn]; simp; omega), getD_replicate]

/-! ### Unfolding `holoCore` -/

theorem holoCore_one (x y : List ℚ) : holoCore 1 x y = holoBase x y 1 := rfl

theorem holoCore_succ (m : ℕ) (x y : List ℚ) :
    holoCore (m + 2) x y
      = setSlice
          (setSlice (dfInterior x y (m + 2)) 0 (some ((m + 2 : ℕ) : ℤ))
            (pySlice (holoCore (m + 1) (pySlice x 0 (some ((2 * (m + 2) : ℕ) : ℤ)))
                (pySlice y 0 (some ((2 * (m + 2) : ℕ) : ℤ)))) 0 (some ((m + 2 : ℕ) : ℤ))))
          (-((m + 2 : ℕ) : ℤ)) none
          (pySlice (holoCore (m + 1) (pySlice x (-((2 * (m + 2) : ℕ) : ℤ)) none)
              (pySlice y (-((2 * (m + 2) : ℕ) : ℤ)) none)) (-((m + 2 : ℕ) : ℤ)) none) := rfl

theorem holoCore_succ_norm (m : ℕ) (x y : List ℚ) (hxy : x.length = y.length)
    (hn : 2 * (m + 2) ≤ y.length)
    (hrec : ∀ a b : List ℚ, a.length = b.length → 2 * (m + 1) ≤ b.length →
      (holoCore (m + 1) a b).length = b.length) :
    holoCore (m + 2) x y
      = setSliceN
          (setSliceN (dfInterior x y (m + 2)) 0 (m + 2)
            ((holoCore (m + 1) (x.take (2 * (m + 2))) (y.take (2 * (m + 2)))).take (m + 2)))
          (y.length - (m + 2)) y.length
          ((holoCore (m + 1) (x.drop (y.length - 2 * (m + 2)))
              (y.drop (y.length - 2 * (m + 2)))).drop (m + 2)) := by
  rw [holoCore_succ, pySlice_zero_nat x _, pySlice_zero_nat y _,
    pySlice_neg_none x _ (by omega) (by omega),
    pySlice_neg_none y _ (by omega) (by omega), hxy]
  have hdflo : (holoCore (m + 1) (x.take (2 * (m + 2))) (y.take (2 * (m + 2)))).length
      = 2 * (m + 2) := by
    rw [hrec _ _ (by simp [hxy]) (by simp; omega)]
    simp
    omega
  have hdfhi : (holoCore (m + 1) (x.drop (y.length - 2 * (m + 2)))
      (y.drop (y.length - 2 * (m + 2)))).length = 2 * (m + 2) := by
    rw [hrec _ _ (by simp [hxy]) (by simp; omega)]
    simp
    omega
  have hdf1 : (dfInterior x y (m + 2)).length = y.length :=
    length_dfInterior x y (m + 2) (by omega) hxy (by omega)
  rw [setSlice_low _ _ (m + 2) (by rw [hdf1]; omega), pySlice_zero_nat _ (m + 2),
    pySlice_neg_none _ (m + 2) (by omega) (by rw [hdfhi]; omega), hdfhi,
    (by omega : 2 * (m + 2) - (m + 2) = m + 2)]
  have hinner : (setSliceN (dfInterior x y (m + 2)) 0 (m + 2)
      ((holoCore (m + 1) (x.take (2 * (m + 2))) (y.take (2 * (m + 2)))).take (m + 2))).length
      = y.length := by
    rw [length_setSliceN _ _ _ _ (by omega) (by rw [hdf1]; omega)
      (by simp only [List.length_take, hdflo]; omega)]
    exact hdf1
  rw [setSlice_high _ _ (m + 2) (by omega) (by rw [hinner]; omega), hinner]

theorem length_holoCore : ∀ (M : ℕ) (x y : List ℚ), 1 ≤ M → x.length = y.length →
    2 * M ≤ y.length → (holoCore M x y).length = y.length := by
  intro M
  induction M with
  | zero => intro x y h _ _; omega
  | succ m ih =>
    intro x y _ hxy hn
    rcases m with _ | m'
    · rw [holoCore_one]
      simp only [holoBase, setAt, List.length_set]
      exact length_dfInterior x y 1 (by omega) hxy (by omega)
    · rw [holoCore_succ_norm m' x y hxy hn (fun a b hab hnb => ih a b (by omega) hab hnb)]
      have hdflo : (holoCore (m' + 1) (x.take (2 * (m' + 2)))
          (y.take (2 * (m' + 2)))).length = 2 * (m' + 2) := by
        rw [ih _ _ (by omega) (by simp [hxy]) (by simp; omega)]
        simp
        omega
      have hdfhi : (holoCore (m' + 1) (x.drop (y.length - 2 * (m' + 2)))
          (y.drop (y.length - 2 * (m' + 2)))).length = 2 * (m' + 2) := by
        rw [ih _ _ (by omega) (by simp [hxy]) (by simp; omega)]
        simp
        omega
      have hdf1 : (dfInterior x y (m' + 2)).length = y.length :=
        length_dfInterior x y (m' + 2) (by omega) hxy (by omega)
      have hinner : (setSliceN (dfInterior x y (m' + 2)) 0 (m' + 2)
          ((holoCore (m' + 1) (x.take (2 * (m' + 2)))
            (y.take (2 * (m' + 2)))).take (m' + 2))).length = y.length := by
        rw [length_setSliceN _ _ _ _ (by omega) (by rw [hdf1]; omega)
          (by simp only [List.length_take, hdflo]; omega)]
        exact hdf1
      rw [length_setSliceN _ _ _ _ (by omega) hinner.ge
        (by simp only [List.length_drop, hdfhi]; omega)]
      exact hinner

theorem length_holoCore_lo (m : ℕ) (x y : List ℚ) (hxy : x.length = y.length)
    (hn : 2 * (m + 2) ≤ y.length) :
    (holoCore (m + 1) (x.take (2 * (m + 2))) (y.take (2 * (m + 2)))).length
      = 2 * (m + 2) := by
  rw [length_holoCore (m + 1) _ _ (by omega) (by simp [hxy]) (by simp; omega)]
  simp
  omega

theorem length_holoCore_hi (m : ℕ) (x y : List ℚ) (hxy : x.length = y.length)
    (hn : 2 * (m + 2) ≤ y.length) :
    (holoCore (m + 1) (x.drop (y.length - 2 * (m + 2)))
      (y.drop (y.length - 2 * (m + 2)))).length = 2 * (m + 2) := by
  rw [length_holoCore (m + 1) _ _ (by omega) (by simp [hxy]) (by simp; omega)]
  simp
  omega

theorem length_innerLow (m : ℕ) (x y : List ℚ) (hxy : x.length = y.length)
    (hn : 2 * (m + 2) ≤ y.length) :
    (setSliceN (dfInterior x y (m + 2)) 0 (m + 2)
      ((holoCore (m + 1) (x.take (2 * (m + 2)))
        (y.take (2 * (m + 2)))).take (m + 2))).length = y.length := by
  have hdf1 : (dfInterior x y (m + 2)).length = y.length :=
    length_dfInterior x y (m + 2) (by omega) hxy (by omega)
  rw [length_setSliceN _ _ _ _ (by omega) (by rw [hdf1]; omega)
    (by simp only [List.length_take, length_holoCore_lo m x y hxy hn]; omega)]
  exact hdf1

theorem holoCore_hrec (m : ℕ) :
    ∀ a b : List ℚ, a.length = b.length → 2 * (m + 1) ≤ b.length →
      (holoCore (m + 1) a b).length = b.length :=
  fun a b hab hnb => length_holoCore (m + 1) a b (by omega) hab hnb

/-! ### Pointwise values of `holoCore` -/

theorem holoCore_succ_getD_low (m : ℕ) (x y : List ℚ) (i : ℕ)
    (hxy : x.length = y.length) (hn : 2 * (m + 2) ≤ y.length) (hi : i < m + 2) :
    (holoCore (m + 2) x y).getD i 0
      = (holoCore (m + 1) (x.take (2 * (m + 2))) (y.take (2 * (m + 2)))).getD i 0 := by
  rw [holoCore_succ_norm m x y hxy hn (holoCore_hrec m),
    getD_setSliceN_lo _ _ _ _ _ (by rw [length_innerLow m x y hxy hn]; omega) (by omega),
    getD_setSliceN_mid _ _ _ _ _ (by omega) hi
      (by rw [length_dfInterior x y (m + 2) (by omega) hxy (by omega)]; omega)
      (by simp only [List.length_take, length_holoCore_lo m x y hxy hn]; omega)]
  simp only [Nat.sub_zero]
  rw [getD_take _ _ _ hi]

theorem holoCore_succ_getD_high (m : ℕ) (x y : List ℚ) (i : ℕ)
    (hxy : x.length = y.length) (hn : 2 * (m + 2) ≤ y.length)
    (h1 : y.length - (m + 2) ≤ i) (h2 : i < y.length) :
    (holoCore (m + 2) x y).getD i 0
      = (holoCore (m + 1) (x.drop (y.length - 2 * (m + 2)))
          (y.drop (y.length - 2 * (m + 2)))).getD (i - (y.length - 2 * (m + 2))) 0 := by
  rw [holoCore_succ_norm m x y hxy hn (holoCore_hrec m),
    getD_setSliceN_mid _ _ _ _ _ h1 h2 (length_innerLow m x y hxy hn).ge
      (by simp only [List.length_drop, length_holoCore_hi m x y hxy hn]; omega),
    getD_drop]
  congr 1
  omega

theorem holoCore_succ_getD_mid (m : ℕ) (x y : List ℚ) (i : ℕ)
    (hxy : x.length = y.length) (hn : 2 * (m + 2) ≤ y.length)
    (h1 : m + 2 ≤ i) (h2 : i + (m + 2) < y.length) :
    (holoCore (m + 2) x y).getD i 0 = (fkSum x y (m + 2)).getD (i - (m + 2)) 0 := by
  rw [holoCore_succ_norm m x y hxy hn (holoCore_hrec m),
    getD_setSliceN_lo _ _ _ _ _ (by rw [length_innerLow m x y hxy hn]; omega) (by omega),
    getD_setSliceN_hi _ _ _ _ _ (by omega)
      (by rw [length_dfInterior x y (m + 2) (by omega) hxy (by omega)]; omega) h1
      (by simp only [List.length_take, length_holoCore_lo m x y hxy hn]; omega)]
  exact dfInterior_getD_mid x y (m + 2) i (by omega) hxy (by omega) h1 (by omega)

theorem holoCore_one_getD_mid (x y : List ℚ) (i : ℕ) (hxy : x.length = y.length)
    (hn : 2 ≤ y.length) (h1 : 1 ≤ i) (h2 : i < y.length - 1) :
    (holoCore 1 x y).getD i 0 = (fkSum x y 1).getD (i - 1) 0 := by
  rw [holoCore_one]
  simp only [holoBase]
  have hdf1 : (dfInterior x y 1).length = y.length :=
    length_dfInterior x y 1 (by omega) hxy (by omega)
  rw [setAt_zero, setAt_neg_one _ _ (by rw [List.length_set, hdf1]; omega),
    List.length_set, hdf1, getD_set, if_neg (by omega), getD_set, if_neg (by omega)]
  exact dfInterior_getD_mid x y 1 i (by omega) hxy (by omega) h1 (by omega)

theorem pyGet_zero (a : List ℚ) : pyGet a 0 = a.getD 0 0 := by
  simp [pyGet, pyIndex]

theorem pyGet_one (a : List ℚ) : pyGet a 1 = a.getD 1 0 := by
  simp [pyGet, pyIndex]

theorem pyGet_neg_one (a : List ℚ) (h : 1 ≤ a.length) :
    pyGet a (-1) = a.getD (a.length - 1) 0 := by
  simp only [pyGet, pyIndex]
  rw [if_pos (by omega), (by omega : ((-1 : ℤ) + a.length).toNat = a.length - 1)]

theorem pyGet_neg_two (a : List ℚ) (h : 2 ≤ a.length) :
    pyGet a (-2) = a.getD (a.length - 2) 0 := by
  simp only [pyGet, pyIndex]
  rw [if_pos (by omega), (by omega : ((-2 : ℤ) + a.length).toNat = a.length - 2)]

theorem holoCore_one_getD_zero (x y : List ℚ) (hxy : x.length = y.length)
    (hn : 2 ≤ y.length) :
    (holoCore 1 x y).getD 0 0 = (y.getD 1 0 - y.getD 0 0) / (x.getD 1 0 - x.getD 0 0) := by
  rw [holoCore_one]
  simp only [holoBase]
  have hdf1 : (dfInterior x y 1).length = y.length :=
    length_dfInterior x y 1 (by omega) hxy (by omega)
  rw [setAt_zero, setAt_neg_one _ _ (by rw [List.length_set, hdf1]; omega),
    List.length_set, hdf1, getD_set, if_neg (by omega), getD_set,
    if_pos ⟨rfl, by rw [hdf1]; omega⟩, pyGet_zero, pyGet_zero, pyGet_one, pyGet_one]

theorem holoCore_one_getD_last (x y : List ℚ) (hxy : x.length = y.length)
    (hn : 2 ≤ y.length) :
    (holoCore 1 x y).getD (y.length - 1) 0
      = (y.getD (y.length - 1) 0 - y.getD (y.length - 2) 0)
        / (x.getD (y.length - 1) 0 - x.getD (y.length - 2) 0) := by
  rw [holoCore_one]
  simp only [holoBase]
  have hdf1 : (dfInterior x y 1).length = y.length :=
    length_dfInterior x y 1 (by omega) hxy (by omega)
  rw [setAt_zero, setAt_neg_one _ _ (by rw [List.length_set, hdf1]; omega),
    List.length_set, hdf1, getD_set, if_pos ⟨rfl, by rw [List.length_set, hdf1]; omega⟩,
    pyGet_neg_one y (by omega), pyGet_neg_two y (by omega),
    pyGet_neg_one x (by omega), pyGet_neg_two x (by omega), hxy]

theorem holoCore_getD_interior (M : ℕ) (x y : List ℚ) (i : ℕ) (hM : 1 ≤ M)
    (hxy : x.length = y.length) (hn : 2 * M ≤ y.length) (h1 : M ≤ i)
    (h2 : i + M < y.length) :
    (holoCore M x y).getD i 0
      = ∑ t in Finset.range M, 2 * ((t : ℚ) + 1) * (coeffs M).getD t 0 *
          ((y.getD (i + (t + 1)) 0 - y.getD (i - (t + 1)) 0)
            / (x.getD (i + (t + 1)) 0 - x.getD (i - (t + 1)) 0)) := by
  have key : (holoCore M x y).getD i 0 = (fkSum x y M).getD (i - M) 0 := by
    rcases M with _ | m
    · omega
    rcases m with _ | m'
    · exact holoCore_one_getD_mid x y i hxy (by omega) h1 (by omega)
    · exact holoCore_succ_getD_mid m' x y i hxy (by omega) h1 (by omega)
  rw [key, fkSum_getD x y M (i - M) hxy hn (by omega)]
  refine Finset.sum_congr rfl ?_
  intro t ht
  rw [Finset.mem_range] at ht
  rw [(by omega : M + (t + 1) + (i - M) = i + (t + 1)),
    (by omega : M - (t + 1) + (i - M) = i - (t + 1))]

/-! ### Strictly increasing abscissae and affine data -/

theorem strictIncr_getD_lt (x : List ℚ) (hm : StrictIncr x) :
    ∀ i j : ℕ, i < j → j < x.length → x.getD i 0 < x.getD j 0 := by
  intro i j hij hj
  induction hij with
  | refl => exact hm i (by omega)
  | @step n hin ih =>
    exact lt_trans (ih (by omega)) (hm n (by omega))

theorem strictIncr_take (x : List ℚ) (t : ℕ) (h : StrictIncr x) :
    StrictIncr (x.take t) := by
  intro i hi
  simp only [List.length_take] at hi
  rw [getD_take _ _ _ (by omega), getD_take _ _ _ (by omega)]
  exact h i (by omega)

theorem strictIncr_drop (x : List ℚ) (d : ℕ) (h : StrictIncr x) :
    StrictIncr (x.drop d) := by
  intro i hi
  simp only [List.length_drop] at hi
  rw [getD_drop, getD_drop, (by omega : d + (i + 1) = d + i + 1)]
  exact h (d + i) (by omega)

theorem affine_quot (x y : List ℚ) (a b : ℚ) (hm : StrictIncr x)
    (hxy : x.length = y.length)
    (haff : ∀ i, i < y.length → y.getD i 0 = a * x.getD i 0 + b)
    (p q : ℕ) (hqp : q < p) (hp : p < y.length) :
    (y.getD p 0 - y.getD q 0) / (x.getD p 0 - x.getD q 0) = a := by
  rw [haff p hp, haff q (by omega)]
  have hlt : x.getD q 0 < x.getD p 0 := strictIncr_getD_lt x hm q p hqp (by omega)
  have hne : x.getD p 0 - x.getD q 0 ≠ 0 := sub_ne_zero_of_ne (ne_of_gt hlt)
  rw [(by ring : a * x.getD p 0 + b - (a * x.getD q 0 + b)
    = a * (x.getD p 0 - x.getD q 0)), mul_div_assoc, div_self hne, mul_one]

/-- Exactness of `holoCore` on affine data, at every index. -/
theorem holoCore_affine : ∀ (M : ℕ) (x y : List ℚ) (a b : ℚ), 1 ≤ M →
    x.length = y.length → 2 * M + 1 ≤ y.length → StrictIncr x →
    (∀ i, i < y.length → y.getD i 0 = a * x.getD i 0 + b) →
    ∀ i, i < y.length → (holoCore M x y).getD i 0 = a := by
  intro M
  induction M with
  | zero => intro x y a b h; omega
  | succ m ih =>
    intro x y a b _ hxy hn hmono haff i hi
    by_cases hint : m + 1 ≤ i ∧ i + (m + 1) < y.length
    · obtain ⟨h1, h2⟩ := hint
      rw [holoCore_getD_interior (m + 1) x y i (by omega) hxy (by omega) h1 h2]
      have hterm : ∀ t ∈ Finset.range (m + 1),
          2 * ((t : ℚ) + 1) * (coeffs (m + 1)).getD t 0 *
            ((y.getD (i + (t + 1)) 0 - y.getD (i - (t + 1)) 0)
              / (x.getD (i + (t + 1)) 0 - x.getD (i - (t + 1)) 0))
            = a * (2 * (((t : ℚ) + 1) * (coeffs (m + 1)).getD t 0)) := by
        intro t ht
        rw [Finset.mem_range] at ht
        rw [affine_quot x y a b hmono hxy haff (i + (t + 1)) (i - (t + 1))
          (by omega) (by omega)]
        ring
      rw [Finset.sum_congr rfl hterm, ← Finset.mul_sum, ← Finset.mul_sum,
        coeffs_weight_sum (m + 1) (by omega)]
      norm_num
    · push_neg at hint
      rcases m with _ | m'
      · have hio : i = 0 ∨ i = y.length - 1 := by omega
        rcases hio with rfl | rfl
        · rw [holoCore_one_getD_zero x y hxy (by omega)]
          exact affine_quot x y a b hmono hxy haff 1 0 (by omega) (by omega)
        · rw [holoCore_one_getD_last x y hxy (by omega)]
          exact affine_quot x y a b hmono hxy haff (y.length - 1) (y.length - 2)
            (by omega) (by omega)
      · have hcase : i < m' + 2 ∨ y.length - (m' + 2) ≤ i := by omega
        rcases hcase with hc | hc
        · rw [holoCore_succ_getD_low m' x y i hxy (by omega) hc]
          refine ih (x.take (2 * (m' + 2))) (y.take (2 * (m' + 2))) a b (by omega)
            (by simp [hxy]) (by simp; omega) (strictIncr_take x _ hmono) ?_ i ?_
          · intro j hj
            simp only [List.length_take] at hj
            rw [getD_take _ _ _ (by omega), getD_take _ _ _ (by omega)]
            exact haff j (by omega)
          · simp
            omega
        · rw [holoCore_succ_getD_high m' x y i hxy (by omega) hc hi]
          refine ih (x.drop (y.length - 2 * (m' + 2))) (y.drop (y.length - 2 * (m' + 2)))
            a b (by omega) (by simp [hxy]) (by simp; omega)
            (strictIncr_drop x _ hmono) ?_ _ ?_
          · intro j hj
            simp only [List.length_drop] at hj
            rw [getD_drop, getD_drop]
            exact haff _ (by omega)
          · simp only [List.length_drop]
            omega

example : coeffs 1 = [1/2] := by
  norm_num [coeffs, cFormula, combZ, List.range_succ, Int.toNat_ofNat, Nat.choose]
example : coeffs 2 = [1/4, 1/8] := by
  norm_num [coeffs, cFormula, combZ, List.range_succ, Int.toNat_ofNat, Nat.choose]
example : holoCore 1 [0, 1] [3, 5] = [2, 2] := by
  norm_num [holoCore, holoBase, dfInterior, fkSum, fkRows, fkRow, coeffs, cFormula, combZ,
    setSlice, setSliceN, setAt, pySlice, pyGet, pyIndex, clampIdx,
    List.range_succ, Int.toNat_ofNat, Nat.choose, List.getD]

/-! ### Conversion between `Icc 1 M` and `range M` sums -/

theorem sum_Icc_one_eq_range (f : ℕ → ℚ) (M : ℕ) :
    ∑ k in Finset.Icc 1 M, f k = ∑ t in Finset.range M, f (t + 1) := by
  rw [← Nat.Ico_succ_right, Finset.sum_Ico_eq_sum_range]
  exact Finset.sum_congr rfl (fun t _ => by rw [Nat.add_comm 1 t])

/-! ### Claim theorems -/

/-- C1: Exactness on affine data: for every order `M ≥ 1`, reals `a`, `b`,
and strictly increasing abscissae `x` with `len(y) ≥ 2M+1` and
`y[i] = a*x[i] + b` for all `i`, `derivative(x, y, M)` succeeds and every
entry of the result, including the first `M` and last `M` boundary entries,
equals `a` exactly. -/
theorem affine_data_exact (x y : List ℚ) (a b : ℚ) (M : ℕ) (hM : 1 ≤ M)
    (hxy : x.length = y.length) (hn : 2 * M + 1 ≤ y.length) (hmono : StrictIncr x)
    (haff : ∀ i, i < y.length → y.getD i 0 = a * x.getD i 0 + b) :
    ∃ df, holo_diff (Sum.inr x) y M = Except.ok df ∧ df.length = y.length ∧
      ∀ i, i < y.length → df.getD i 0 = a := by
  refine ⟨holoCore M x y, by simp [holo_diff, hxy], ?_, ?_⟩
  · exact length_holoCore M x y hM hxy (by omega)
  · exact holoCore_affine M x y a b hM hxy hn hmono haff

theorem affine_data_exact_witness :
    ∃ df, holo_diff (Sum.inr [0, 1, 2, 3, 4]) ([3, 5, 7, 9, 11] : List ℚ) 2
        = Except.ok df ∧
      df.length = ([3, 5, 7, 9, 11] : List ℚ).length ∧
      ∀ i, i < ([3, 5, 7, 9, 11] : List ℚ).length → df.getD i 0 = 2 :=
  affine_data_exact [0, 1, 2, 3, 4] [3, 5, 7, 9, 11] 2 3 2 (by norm_num) (by norm_num)
    (by norm_num)
    (by
      intro i hi
      norm_num at hi
      interval_cases i <;> norm_num [List.getD_cons_zero, List.getD_cons_succ])
    (by
      intro i hi
      norm_num at hi
      interval_cases i <;> norm_num [List.getD_cons_zero, List.getD_cons_succ])

/-- C2: Interior stencil formula: for `M ≥ 1`, equal-length inputs with
`len(y) ≥ 2M+1`, and every interior index `i ∈ [M, len(y)-M-1]`,
`derivative(x, y, M)[i] = ∑_{k=1}^{M} 2*k*c[k]*(y[i+k]-y[i-k])/(x[i+k]-x[i-k])`
with `c = coefficients(M)`; the `k = M` term is included (the upper slice
bound at `k = M` is take-to-end, not an empty slice). -/
theorem interior_stencil_formula (x y : List ℚ) (M i : ℕ) (hM : 1 ≤ M)
    (hxy : x.length = y.length) (hn : 2 * M + 1 ≤ y.length)
    (h1 : M ≤ i) (h2 : i + M + 1 ≤ y.length) :
    (holoCore M x y).getD i 0
      = ∑ k in Finset.Icc 1 M, 2 * (k : ℚ) * (coeffs M).getD (k - 1) 0 *
          ((y.getD (i + k) 0 - y.getD (i - k) 0)
            / (x.getD (i + k) 0 - x.getD (i - k) 0)) := by
  rw [holoCore_getD_interior M x y i hM hxy (by omega) h1 (by omega),
    sum_Icc_one_eq_range]
  refine Finset.sum_congr rfl (fun t ht => ?_)
  rw [Finset.mem_range] at ht
  push_cast [Nat.add_sub_cancel]
  rfl

theorem interior_stencil_formula_witness :
    (holoCore 2 [0, 1, 2, 3, 4] [0, 1, 4, 9, 16]).getD 2 0
      = ∑ k in Finset.Icc (1 : ℕ) 2, 2 * (k : ℚ) * (coeffs 2).getD (k - 1) 0 *
          ((([0, 1, 4, 9, 16] : List ℚ).getD (2 + k) 0
              - ([0, 1, 4, 9, 16] : List ℚ).getD (2 - k) 0)
            / (([0, 1, 2, 3, 4] : List ℚ).getD (2 + k) 0
              - ([0, 1, 2, 3, 4] : List ℚ).getD (2 - k) 0)) :=
  interior_stencil_formula [0, 1, 2, 3, 4] [0, 1, 4, 9, 16] 2 2 (by norm_num)
    (by norm_num) (by norm_num) (by norm_num) (by norm_num)

/-- C6: Consistency constant of the stencil weights: for every `M ≥ 1`,
`∑_{k=1}^{M} k * coefficients(M)[k] = 1/2`, independent of `M`. -/
theorem stencil_weight_sum_half (M : ℕ) (hM : 1 ≤ M) :
    ∑ k in Finset.Icc 1 M, (k : ℚ) * (coeffs M).getD (k - 1) 0 = 1 / 2 := by
  rw [sum_Icc_one_eq_range]
  have h : ∀ t ∈ Finset.range M, ((t + 1 : ℕ) : ℚ) * (coeffs M).getD (t + 1 - 1) 0
      = ((t : ℚ) + 1) * (coeffs M).getD t 0 := by
    intro t _
    push_cast [Nat.add_sub_cancel]
    rfl
  rw [Finset.sum_congr rfl h, coeffs_weight_sum M hM]

theorem stencil_weight_sum_half_witness :
    ∑ k in Finset.Icc (1 : ℕ) 3, (k : ℚ) * (coeffs 3).getD (k - 1) 0 = 1 / 2 :=
  stencil_weight_sum_half 3 (by norm_num)

theorem combZ_eq_chooseSpec (m : ℕ) (r : ℤ) :
    combZ ((2 * m : ℕ) : ℤ) r = chooseSpec (2 * m) r := by
  unfold combZ chooseSpec
  by_cases h : 0 ≤ r ∧ r ≤ ((2 * m : ℕ) : ℤ)
  · rw [if_pos ⟨by omega, h.1, h.2⟩, if_neg (by omega)]
    congr 1
  · rw [if_neg (by omega), if_pos (by omega)]

/-- C3: Coefficient generator closed form: for every `M ≥ 1`,
`coefficients(M)` has length `M`, its `k`-th entry (`k = 1..M`) equals
`(1/2^(2m+1)) * (C(2m, m-k+1) - C(2m, m-k-1))` with `m = (2M-2)/2 = M-1`
and `C` extended by `0` out of range, and `coefficients(1) = [0.5]`. -/
theorem coeffs_closed_form (M : ℕ) (hM : 1 ≤ M) :
    (coeffs M).length = M ∧
      (∀ k, 1 ≤ k → k ≤ M → (coeffs M).getD (k - 1) 0 = cSpec M k) ∧
      coeffs 1 = [1 / 2] := by
  refine ⟨length_coeffs M, ?_,
    by norm_num [coeffs, cFormula, combZ, List.range_succ, Int.toNat_ofNat, Nat.choose]⟩
  intro k hk1 hk2
  rw [coeffs_getD M (k - 1) (by omega),
    (by omega : 2 * ((M : ℤ) - 1) = ((2 * (M - 1) : ℕ) : ℤ)),
    (by push_cast; omega : ((2 * (M - 1) : ℕ) : ℤ) + 1 = ((2 * (M - 1) + 1 : ℕ) : ℤ)),
    zpow_natCast,
    (by omega : (M : ℤ) - 1 - (((k - 1 : ℕ) : ℤ) + 1) + 1
      = ((M - 1 : ℕ) : ℤ) - (k : ℤ) + 1),
    (by omega : (M : ℤ) - 1 - (((k - 1 : ℕ) : ℤ) + 1) - 1
      = ((M - 1 : ℕ) : ℤ) - (k : ℤ) - 1)]
  simp only [combZ_eq_chooseSpec (M - 1), cSpec]

theorem coeffs_closed_form_witness :
    (coeffs 2).length = 2 ∧ (coeffs 2).getD 0 0 = cSpec 2 1 ∧
      (coeffs 2).getD 1 0 = cSpec 2 2 :=
  ⟨(coeffs_closed_form 2 (by norm_num)).1,
    (coeffs_closed_form 2 (by norm_num)).2.1 1 (by norm_num) (by norm_num),
    (coeffs_closed_form 2 (by norm_num)).2.1 2 (by norm_num) (by norm_num)⟩

/-- C4: Boundary filling: for `M > 1` and `len(y) = n ≥ 2M+1`, the first `M`
entries of `derivative(x, y, M)` equal the first `M` entries of
`derivative(x[0:2M], y[0:2M], M-1)` and the last `M` entries equal entries
`M..2M-1` of `derivative(x[n-2M:n], y[n-2M:n], M-1)`; for `M = 1` the first
entry equals `(y[1]-y[0])/(x[1]-x[0])` and the last equals
`(y[n-1]-y[n-2])/(x[n-1]-x[n-2])`, exactly. -/
theorem boundary_filling (x y : List ℚ) (M : ℕ) (hxy : x.length = y.length)
    (hn : 2 * M + 1 ≤ y.length) :
    (2 ≤ M →
      (∀ i, i < M → (holoCore M x y).getD i 0
        = (holoCore (M - 1) (x.take (2 * M)) (y.take (2 * M))).getD i 0) ∧
      (∀ i, y.length - M ≤ i → i < y.length → (holoCore M x y).getD i 0
        = (holoCore (M - 1) (x.drop (y.length - 2 * M))
            (y.drop (y.length - 2 * M))).getD (i - (y.length - 2 * M)) 0)) ∧
    (M = 1 →
      (holoCore M x y).getD 0 0 = (y.getD 1 0 - y.getD 0 0) / (x.getD 1 0 - x.getD 0 0) ∧
      (holoCore M x y).getD (y.length - 1) 0
        = (y.getD (y.length - 1) 0 - y.getD (y.length - 2) 0)
          / (x.getD (y.length - 1) 0 - x.getD (y.length - 2) 0)) := by
  constructor
  · intro hM2
    obtain ⟨m, rfl⟩ : ∃ m, M = m + 2 := ⟨M - 2, by omega⟩
    exact ⟨fun i hi => holoCore_succ_getD_low m x y i hxy (by omega) hi,
      fun i hl hr => holoCore_succ_getD_high m x y i hxy (by omega) hl hr⟩
  · intro hM1
    subst hM1
    exact ⟨holoCore_one_getD_zero x y hxy (by omega),
      holoCore_one_getD_last x y hxy (by omega)⟩

theorem boundary_filling_witness :
    (holoCore 2 [0, 1, 2, 3, 4] [0, 1, 4, 9, 16]).getD 0 0
        = (holoCore 1 (([0, 1, 2, 3, 4] : List ℚ).take 4)
            (([0, 1, 4, 9, 16] : List ℚ).take 4)).getD 0 0 ∧
      (holoCore 1 [0, 1, 2] [5, 7, 9]).getD 0 0
        = (([5, 7, 9] : List ℚ).getD 1 0 - ([5, 7, 9] : List ℚ).getD 0 0)
          / (([0, 1, 2] : List ℚ).getD 1 0 - ([0, 1, 2] : List ℚ).getD 0 0) :=
  ⟨((boundary_filling [0, 1, 2, 3, 4] [0, 1, 4, 9, 16] 2 (by norm_num)
      (by norm_num)).1 (by norm_num)).1 0 (by norm_num),
    ((boundary_filling [0, 1, 2] [5, 7, 9] 1 (by norm_num) (by norm_num)).2 rfl).1⟩

/-- C5: Length-mismatch error handling: `derivative(x, y, M)` fails iff `x`
is given as a sequence with `len(x) ≠ len(y)`, the failure message carries
both lengths, and a scalar `x` never raises this failure: it is first
expanded to `step * [0, 1, ..., len(y)-1]`. -/
theorem holo_diff_inr (xs y : List ℚ) (M : ℕ) :
    holo_diff (Sum.inr xs) y M
      = if xs.length = y.length then Except.ok (holoCore M xs y)
        else Except.error (lenMsg xs.length y.length) := by
  simp only [holo_diff]

theorem holo_diff_inl (step : ℚ) (y : List ℚ) (M : ℕ) :
    holo_diff (Sum.inl step) y M
      = Except.ok (holoCore M ((List.range y.length).map (fun (i : ℕ) => step * (i : ℚ))) y) := by
  simp only [holo_diff]
  rw [if_pos (by rw [List.length_map, List.length_range])]

theorem length_mismatch_error (y : List ℚ) (M : ℕ) :
    (∀ xs : List ℚ,
      (∃ e, holo_diff (Sum.inr xs) y M = Except.error e) ↔ xs.length ≠ y.length) ∧
    (∀ xs : List ℚ, xs.length ≠ y.length →
      holo_diff (Sum.inr xs) y M = Except.error (lenMsg xs.length y.length)) ∧
    (∀ step : ℚ, holo_diff (Sum.inl step) y M
      = Except.ok (holoCore M ((List.range y.length).map (fun (i : ℕ) => step * (i : ℚ))) y)) := by
  refine ⟨fun xs => ⟨?_, fun hlen =>
      ⟨lenMsg xs.length y.length, by rw [holo_diff_inr, if_neg hlen]⟩⟩, ?_, ?_⟩
  · rintro ⟨e, he⟩ hlen
    rw [holo_diff_inr, if_pos hlen] at he
    exact Except.noConfusion he
  · intro xs hlen
    rw [holo_diff_inr, if_neg hlen]
  · exact fun step => holo_diff_inl step y M

theorem length_mismatch_error_witness :
    (∃ e, holo_diff (Sum.inr [1, 2, 3, 4, 5]) ([1, 2, 3, 4, 5, 6] : List ℚ) 2
      = Except.error e) ∧
    holo_diff (Sum.inl (1 : ℚ)) ([1, 2, 3, 4, 5, 6] : List ℚ) 2
      = Except.ok (holoCore 2
          ((List.range ([1, 2, 3, 4, 5, 6] : List ℚ).length).map (fun (i : ℕ) => 1 * (i : ℚ)))
          [1, 2, 3, 4, 5, 6]) :=
  ⟨((length_mismatch_error [1, 2, 3, 4, 5, 6] 2).1 [1, 2, 3, 4, 5]).mpr (by norm_num),
    (length_mismatch_error [1, 2, 3, 4, 5, 6] 2).2.2 1⟩

/-- C7: Shape invariant: for every valid input (`x` scalar, or a sequence of
the same length as `y`; `M ≥ 1`; `len(y) ≥ 2M+1`), the result of
`derivative(x, y, M)` has exactly the length of `y`. -/
theorem shape_invariant (x : ℚ ⊕ List ℚ) (y : List ℚ) (M : ℕ) (hM : 1 ≤ M)
    (hn : 2 * M + 1 ≤ y.length)
    (hx : ∀ xs, x = Sum.inr xs → xs.length = y.length) :
    ∃ df, holo_diff x y M = Except.ok df ∧ df.length = y.length := by
  rcases x with step | xs
  · exact ⟨holoCore M ((List.range y.length).map (fun (i : ℕ) => step * (i : ℚ))) y,
      holo_diff_inl step y M,
      length_holoCore M _ y hM (by rw [List.length_map, List.length_range]) (by omega)⟩
  · have hlen := hx xs rfl
    exact ⟨holoCore M xs y, by rw [holo_diff_inr, if_pos hlen],
      length_holoCore M xs y hM hlen (by omega)⟩

theorem shape_invariant_witness :
    ∃ df, holo_diff (Sum.inl (1 : ℚ)) ([0, 1, 4, 9, 16] : List ℚ) 2 = Except.ok df ∧
      df.length = ([0, 1, 4, 9, 16] : List ℚ).length :=
  shape_invariant (Sum.inl 1) [0, 1, 4, 9, 16] 2 (by norm_num) (by norm_num)
    (fun xs h => by simp at h)

theorem holoDepth_eq : ∀ M : ℕ, 1 ≤ M → holoDepth M = M - 1 := by
  intro M
  induction M with
  | zero => intro h; omega
  | succ m ih =>
    intro _
    rcases m with _ | m'
    · rfl
    · simp only [holoDepth]
      rw [ih (by omega)]
      omega

/-- C8: Termination: `holoCore` is a total function by construction; its
recursion depth, mirrored by `holoDepth`, is exactly `M - 1` (each recursive
call decreases the order by one and the recursion bottoms out at `M = 1`),
and each recursive call receives the sub-sequences `y[:2M]` and `y[-2M:]`
of length exactly `2M`. -/
theorem recursion_depth (M : ℕ) (hM : 1 ≤ M) :
    holoDepth M = M - 1 ∧
    (∀ y : List ℚ, 2 * M ≤ y.length →
      (pySlice y 0 (some ((2 * M : ℕ) : ℤ))).length = 2 * M ∧
      (pySlice y (-((2 * M : ℕ) : ℤ)) none).length = 2 * M) := by
  refine ⟨holoDepth_eq M hM, fun y hy => ⟨?_, ?_⟩⟩
  · rw [pySlice_zero_nat]
    simp
    omega
  · rw [pySlice_neg_none y (2 * M) (by omega) (by omega)]
    simp
    omega

theorem recursion_depth_witness :
    holoDepth 3 = 3 - 1 ∧
      (pySlice ([0, 1, 2, 3, 4, 5] : List ℚ) 0 (some ((2 * 3 : ℕ) : ℤ))).length = 2 * 3 ∧
      (pySlice ([0, 1, 2, 3, 4, 5] : List ℚ) (-((2 * 3 : ℕ) : ℤ)) none).length = 2 * 3 :=
  ⟨(recursion_depth 3 (by norm_num)).1,
    (recursion_depth 3 (by norm_num)).2 [0, 1, 2, 3, 4, 5] (by norm_num)⟩

/-- C9: Order 1 is the classical central difference: for `M = 1`,
equal-length inputs with `len(y) ≥ 3` and distinct relevant abscissae,
every interior entry `i ∈ [1, len(y)-2]` of `derivative(x, y, 1)` equals
`(y[i+1] - y[i-1])/(x[i+1] - x[i-1])` exactly, because
`coefficients(1) = [0.5]` makes the single stencil weight `2*1*0.5 = 1`. -/
theorem order_one_central_difference (x y : List ℚ) (i : ℕ)
    (hxy : x.length = y.length) (hn : 3 ≤ y.length) (h1 : 1 ≤ i)
    (h2 : i + 2 ≤ y.length) (_hx : x.getD (i - 1) 0 ≠ x.getD (i + 1) 0) :
    (holoCore 1 x y).getD i 0
      = (y.getD (i + 1) 0 - y.getD (i - 1) 0) / (x.getD (i + 1) 0 - x.getD (i - 1) 0) := by
  rw [holoCore_getD_interior 1 x y i (by omega) hxy (by omega) (by omega) (by omega),
    Finset.sum_range_one,
    (by norm_num [coeffs, cFormula, combZ, List.range_succ, Int.toNat_ofNat,
      Nat.choose] : (coeffs 1).getD 0 0 = 1 / 2)]
  norm_num

theorem order_one_central_difference_witness :
    (holoCore 1 [0, 1, 3, 4] [5, 6, 8, 9]).getD 1 0
      = (([5, 6, 8, 9] : List ℚ).getD 2 0 - ([5, 6, 8, 9] : List ℚ).getD 0 0)
        / (([0, 1, 3, 4] : List ℚ).getD 2 0 - ([0, 1, 3, 4] : List ℚ).getD 0 0) :=
  order_one_central_difference [0, 1, 3, 4] [5, 6, 8, 9] 1 (by norm_num) (by norm_num)
    (by norm_num) (by norm_num) (by norm_num [List.getD_cons_zero, List.getD_cons_succ])

/-- C10: Two-point inputs are well-defined at order 1: for `M = 1` and
`len(y) = 2` with `x[0] ≠ x[1]`, `derivative(x, y, 1)` succeeds and both
entries of the result equal `(y[1] - y[0])/(x[1] - x[0])`: the interior
computation is an empty no-op and both edge formulas give the same slope. -/
theorem two_point_order_one (x0 x1 y0 y1 : ℚ) (_hx : x0 ≠ x1) :
    holo_diff (Sum.inr [x0, x1]) [y0, y1] 1
      = Except.ok [(y1 - y0) / (x1 - x0), (y1 - y0) / (x1 - x0)] := by
  norm_num [holo_diff, holoCore_one, holoBase, dfInterior, fkSum, fkRows, fkRow,
    coeffs, cFormula, combZ, setSlice, setSliceN, setAt, pySlice, pyGet, pyIndex,
    clampIdx, List.range_succ, List.getD]

theorem two_point_order_one_witness :
    holo_diff (Sum.inr [0, 1]) ([3, 5] : List ℚ) 1
      = Except.ok [((5 : ℚ) - 3) / (1 - 0), ((5 : ℚ) - 3) / (1 - 0)] :=
  two_point_order_one 0 1 3 5 (by norm_num)
